import Mathlib

/-!
Verification of the batchglm constrained-GLM estimation core, as a shallow
embedding in Lean 4.  Numeric tensors are modelled over `ℚ`; the per-feature
tensor operations of the source are embedded columnwise (tensorflow applies
them elementwise/columnwise over features).  Transcendental functions
(`exp`, `log`, `lgamma`) are taken as abstract function parameters, since the
claims under verification are structural (order of operations, control flow,
aggregation), not analytic.
-/

namespace BatchGLM

/-- Python exception values raised by the embedded code paths. -/
inductive PyErr where
  | valueError (msg : String)
  | typeError (msg : String)
  | nameError (name : String)
  | attributeError (name : String)
  deriving DecidableEq, Repr

/-! ## Parameter bounds clipper
    (src/batchglm/train/tf/nb_glm/model.py, `param_bounds` / `tf_clip_param`)

    `param_bounds` derives its bounds from the floating-point type's
    representable range (`np.nextafter(0, inf)`, `np.log(dmax)`, …) scaled by
    the safety factor `ACCURACY_MARGIN_RELATIVE_TO_LIMIT`.  We model the
    dtype by the finitely many float constants the source reads off it. -/

/-- The float-derived constants used by `param_bounds`:
    `logSmallestPos` models `np.log(np.nextafter(0, np.inf, dtype))`,
    `smallestPos` models `np.nextafter(0, np.inf, dtype)`,
    `logMaxPrev` models `np.nextafter(np.log(dmax), -np.inf, dtype)`,
    `maxPrev` models `np.nextafter(dmax, -np.inf, dtype)`,
    `sf` models `dtype(pkg_constants.ACCURACY_MARGIN_RELATIVE_TO_LIMIT)`. -/
structure DtypeInfo where
  logSmallestPos : ℚ
  smallestPos : ℚ
  logMaxPrev : ℚ
  maxPrev : ℚ
  sf : ℚ

/-- Facts true of every actual floating-point dtype instantiation:
    the log of the smallest positive value is negative, the smallest positive
    value is positive and below the largest, the log of the largest is
    positive, and the safety margin is a fraction in (0, 1]. -/
def DtypeInfo.Valid (d : DtypeInfo) : Prop :=
  d.logSmallestPos ≤ 0 ∧ 0 ≤ d.smallestPos ∧ d.smallestPos ≤ d.maxPrev ∧
    0 ≤ d.logMaxPrev ∧ 0 < d.sf ∧ d.sf ≤ 1

/-- The named quantities clipped by `param_bounds`. -/
inductive ParamName where
  | a | b | log_mu | log_r | mu | r | probs | log_probs
  deriving DecidableEq, Repr

/-- `bounds_min` dictionary of `param_bounds`. -/
def bounds_min (d : DtypeInfo) : ParamName → ℚ
  | .a => d.logSmallestPos / d.sf
  | .b => d.logSmallestPos / d.sf
  | .log_mu => d.logSmallestPos / d.sf
  | .log_r => d.logSmallestPos / d.sf
  | .mu => d.smallestPos
  | .r => d.smallestPos
  | .probs => 0
  | .log_probs => d.logSmallestPos

/-- `bounds_max` dictionary of `param_bounds`. -/
def bounds_max (d : DtypeInfo) : ParamName → ℚ
  | .a => d.logMaxPrev / d.sf
  | .b => d.logMaxPrev / d.sf
  | .log_mu => d.logMaxPrev / d.sf
  | .log_r => d.logMaxPrev / d.sf
  | .mu => d.maxPrev / d.sf
  | .r => d.maxPrev / d.sf
  | .probs => 1
  | .log_probs => 0

/-- `tf.clip_by_value x lo hi = min (max x lo) hi`. -/
def clip_by_value (x lo hi : ℚ) : ℚ := min (max x lo) hi

/-- `tf_clip_param` / `np_clip_param`: clip a value to the bounds derived for
    its name. -/
def tf_clip_param (d : DtypeInfo) (x : ℚ) (name : ParamName) : ℚ :=
  clip_by_value x (bounds_min d name) (bounds_max d name)

/-! ## Forward model
    (src/batchglm/train/tf/nb_glm/model.py, `BasicModelGraph.__init__`) -/

/-- `tf.matmul` over ℚ matrices given as index functions. -/
def matmul {o q f : ℕ} (A : Fin o → Fin q → ℚ) (B : Fin q → Fin f → ℚ) :
    Fin o → Fin f → ℚ :=
  fun i j => ∑ k, A i k * B k j

/-- The abstract transcendental functions of the forward model; the claims
    under check are structural, so these are opaque parameters. -/
structure Transcendentals where
  exp : ℚ → ℚ
  log : ℚ → ℚ
  lgamma : ℚ → ℚ

/-- Inputs of `BasicModelGraph.__init__` (observations `o`, features `f`,
    location parameters `p`, scale parameters `q`); `a` and `b` are the
    already-reconstructed full parameter tensors. -/
structure ModelInput (o f p q : ℕ) where
  X : Fin o → Fin f → ℚ
  design_loc : Fin o → Fin p → ℚ
  design_scale : Fin o → Fin q → ℚ
  a : Fin p → Fin f → ℚ
  b : Fin q → Fin f → ℚ
  size_factors : Option (Fin o → Fin f → ℚ)

variable {o f p q : ℕ}

/-- The `mu` scope of `BasicModelGraph.__init__`:
    `log_mu = matmul(design_loc, a)`, then `log_mu += size_factors` when
    given, then `log_mu = tf_clip_param(log_mu, "log_mu")`. -/
def model_log_mu (d : DtypeInfo) (m : ModelInput o f p q) : Fin o → Fin f → ℚ :=
  let lm := matmul m.design_loc m.a
  let lm := match m.size_factors with
    | some sfac => fun i j => lm i j + sfac i j
    | none => lm
  fun i j => tf_clip_param d (lm i j) .log_mu

/-- `mu = tf.exp(log_mu)`. -/
def model_mu (d : DtypeInfo) (t : Transcendentals) (m : ModelInput o f p q) :
    Fin o → Fin f → ℚ :=
  fun i j => t.exp (model_log_mu d m i j)

/-- The `r` scope: `log_r = clip(matmul(design_scale, b))`. -/
def model_log_r (d : DtypeInfo) (m : ModelInput o f p q) : Fin o → Fin f → ℚ :=
  fun i j => tf_clip_param d (matmul m.design_scale m.b i j) .log_r

/-- `r = tf.exp(log_r)`. -/
def model_r (d : DtypeInfo) (t : Transcendentals) (m : ModelInput o f p q) :
    Fin o → Fin f → ℚ :=
  fun i j => t.exp (model_log_r d m i j)

/-- `sigma2 = mu + mu^2 * r`. -/
def model_sigma2 (d : DtypeInfo) (t : Transcendentals) (m : ModelInput o f p q) :
    Fin o → Fin f → ℚ :=
  fun i j => model_mu d t m i j + (model_mu d t m i j)^2 * model_r d t m i j

/-- The `log_probs` scope: the negative-binomial log-density with the shared
    subterm `log_r_plus_mu = log(r + mu)`, clipped. -/
def model_log_probs (d : DtypeInfo) (t : Transcendentals) (m : ModelInput o f p q) :
    Fin o → Fin f → ℚ :=
  let mu := model_mu d t m
  let r := model_r d t m
  let log_mu := model_log_mu d m
  let log_r := model_log_r d m
  let log_r_plus_mu := fun i j => t.log (r i j + mu i j)
  fun i j =>
    tf_clip_param d
      (t.lgamma (r i j + m.X i j) - t.lgamma (m.X i j + 1) - t.lgamma (r i j) +
        m.X i j * (log_mu i j - log_r_plus_mu i j) +
        r i j * (log_r i j - log_r_plus_mu i j))
      .log_probs

/-- `log_likelihood = tf.reduce_sum(log_probs, axis=0)`. -/
def model_log_likelihood (d : DtypeInfo) (t : Transcendentals) (m : ModelInput o f p q) :
    Fin f → ℚ :=
  fun j => ∑ i, model_log_probs d t m i j

/-- `norm_log_likelihood = tf.reduce_mean(log_probs, axis=0)`. -/
def model_norm_log_likelihood (d : DtypeInfo) (t : Transcendentals) (m : ModelInput o f p q) :
    Fin f → ℚ :=
  fun j => (∑ i, model_log_probs d t m i j) / (o : ℚ)

/-- `norm_neg_log_likelihood = - norm_log_likelihood`. -/
def model_norm_neg_log_likelihood (d : DtypeInfo) (t : Transcendentals)
    (m : ModelInput o f p q) : Fin f → ℚ :=
  fun j => - model_norm_log_likelihood d t m j

/-- `loss = tf.reduce_sum(norm_neg_log_likelihood)`. -/
def model_loss (d : DtypeInfo) (t : Transcendentals) (m : ModelInput o f p q) : ℚ :=
  ∑ j, model_norm_neg_log_likelihood d t m j

/-- The spec's formula for the location predictor,
    `log_mu = clip(design_loc · a) [+ offset]`: the clip applied to the
    matmul alone and the offset added outside the clip.  Stated from the
    spec's words for comparison with `model_log_mu`. -/
def spec_log_mu (d : DtypeInfo) (m : ModelInput o f p q) : Fin o → Fin f → ℚ :=
  fun i j =>
    tf_clip_param d (matmul m.design_loc m.a i j) .log_mu +
      (match m.size_factors with | some sfac => sfac i j | none => 0)

/-- A representative valid dtype instantiation (rational stand-ins for the
    float64 constants; the `log_mu` bounds come out as `[-10, 10]`). -/
def dtypeTest : DtypeInfo :=
  { logSmallestPos := -49/5
    smallestPos := 1/1000000
    logMaxPrev := 49/5
    maxPrev := 1000000
    sf := 49/50 }

/-- Concrete forward-model input: one observation, one feature,
    `design_loc = [[1]]`, `a = [[20]]`, size factor `5`. -/
def modelInputTest : ModelInput 1 1 1 1 :=
  { X := fun _ _ => 0
    design_loc := fun _ _ => 1
    design_scale := fun _ _ => 1
    a := fun _ _ => 20
    b := fun _ _ => 0
    size_factors := some (fun _ _ => 5) }

/-! ## Newton-Raphson trust-region update
    (src/batchglm/train/tf/train.py, `MultiTrainer.__init__`, `nr_tr` branch)

    The per-feature update over `P` independent parameters and `F` features.
    `ll` abstracts the full forward-model recomputation of
    `norm_log_likelihood` at an injected parameter tensor
    (`model_vars_eval.new` / `model_eval.new`); `model_ll` is the current
    model's `norm_log_likelihood`, i.e. `ll` at the current parameters.
    The trust-region constants `eta0 eta1 eta2 t1 t2 upper_bound` model
    `pkg_constants.TRUST_REGION_*` (defined outside src/; the spec gives
    `η0 = 0, η1 ≈ 0.25, η2 ≈ 0.75, t1 ≈ 0.25, t2 ≈ 2.0`). -/

/-- The fixed trust-region hyperparameters read from `pkg_constants`. -/
structure TrConfig where
  eta0 : ℚ
  eta1 : ℚ
  eta2 : ℚ
  t1 : ℚ
  t2 : ℚ
  upper_bound : ℚ

/-- Inputs of the `nr_tr` branch for one training step. -/
structure TrInput (P F : ℕ) where
  vars : Fin P → Fin F → ℚ
  newton_tr_delta : Fin P → Fin F → ℚ
  nr_tr_radius : Fin F → ℚ
  nr_tr_pred_cost_gain : Fin F → ℚ
  ll : (Fin P → Fin F → ℚ) → Fin F → ℚ
  global_step : ℕ

/-- `theta_new = variables - tf.expand_dims(nr_tr_radius, axis=0) *
    newton_tr_delta`. -/
def theta_new {P F : ℕ} (s : TrInput P F) : Fin P → Fin F → ℚ :=
  fun p i => s.vars p i - s.nr_tr_radius i * s.newton_tr_delta p i

/-- `delta_f_actual = ll_eval - model_ll`, with `ll_eval` the normalized
    log-likelihood of the model rebuilt at `theta_new`. -/
def delta_f_actual {P F : ℕ} (s : TrInput P F) : Fin F → ℚ :=
  fun i => s.ll (theta_new s) i - s.ll s.vars i

/-- `delta_f_ratio = tf.divide(delta_f_actual, delta_f_pred)`. -/
def delta_f_ratio {P F : ℕ} (s : TrInput P F) : Fin F → ℚ :=
  fun i => delta_f_actual s i / s.nr_tr_pred_cost_gain i

/-- `update_theta = tf.logical_and(delta_f_actual > eta0,
    delta_f_ratio > eta1)`. -/
def update_theta {P F : ℕ} (c : TrConfig) (s : TrInput P F) : Fin F → Bool :=
  fun i => decide (delta_f_actual s i > c.eta0) && decide (delta_f_ratio s i > c.eta1)

/-- `theta_new_nr_tr`: per feature, the candidate column when
    `update_theta[i]`, the current column otherwise. -/
def theta_new_nr_tr {P F : ℕ} (c : TrConfig) (s : TrInput P F) :
    Fin P → Fin F → ℚ :=
  fun p i => if update_theta c s i then theta_new s p i else s.vars p i

/-- `nr_tr_radius_new`: per feature, `radius * t1` when `delta_f_ratio < eta1`,
    else `min(radius * t2, upper_bound)` when `delta_f_ratio > eta2`,
    else the radius unchanged. -/
def nr_tr_radius_new {P F : ℕ} (c : TrConfig) (s : TrInput P F) : Fin F → ℚ :=
  fun i =>
    if delta_f_ratio s i < c.eta1 then s.nr_tr_radius i * c.t1
    else if delta_f_ratio s i > c.eta2 then min (s.nr_tr_radius i * c.t2) c.upper_bound
    else s.nr_tr_radius i

/-- The grouped `train_op_nr_tr`: the values assigned to `variables`,
    `nr_tr_radius`, `features_updated` and `global_step` by the grouped op. -/
def train_op_nr_tr {P F : ℕ} (c : TrConfig) (s : TrInput P F) :
    (Fin P → Fin F → ℚ) × (Fin F → ℚ) × (Fin F → Bool) × ℕ :=
  (theta_new_nr_tr c s, nr_tr_radius_new c s, update_theta c s, s.global_step + 1)

/-- The radius update as a standalone function of the improvement ratio and
    the current radius only — it takes no acceptance information. -/
def radius_update_rule (c : TrConfig) (ratioVal radius : ℚ) : ℚ :=
  if ratioVal < c.eta1 then radius * c.t1
  else if ratioVal > c.eta2 then min (radius * c.t2) c.upper_bound
  else radius

/-- A concrete trust-region configuration (the spec's recommended values,
    with `upper_bound = 100`). -/
def trConfigTest : TrConfig :=
  { eta0 := 0, eta1 := 1/4, eta2 := 3/4, t1 := 1/4, t2 := 2, upper_bound := 100 }

/-- A concrete one-parameter, one-feature trust-region step input. -/
def trInputTest : TrInput 1 1 :=
  { vars := fun _ _ => 1
    newton_tr_delta := fun _ _ => 1
    nr_tr_radius := fun _ => 2
    nr_tr_pred_cost_gain := fun _ => 1
    ll := fun th i => th 0 i
    global_step := 0 }

/-! ## Constraint reducer
    (src/batchglm/train/tf/nb_glm/model.py, `apply_constraints`)

    The reducer is embedded per feature column (`tf.matmul`, `tf.concat` and
    `tf.gather` act columnwise over features): parameter tensors are lists of
    rationals indexed by model-parameter row.  `n` is
    `constraints.shape[1]` (the full parameter count); constraint rows are
    lists of length `n`. -/

/-- Entry `constraints[i, j]` (0 outside the array). -/
def centry (constraints : List (List ℚ)) (i j : ℕ) : ℚ :=
  (constraints.getD i []).getD j 0

/-- `idx_indep = np.where(np.all(constraints != -1, axis=0))[0]`:
    the columns in which no row has a `-1`. -/
def idx_indep (n : ℕ) (constraints : List (List ℚ)) : List ℕ :=
  (List.range n).filter (fun j => constraints.all (fun row => row.getD j 0 != -1))

/-- `idx_dep = np.array([np.where(constr == -1)[0] for constr in
    constraints])`: per row, the columns holding a `-1`. -/
def idx_dep_rows (n : ℕ) (constraints : List (List ℚ)) : List (List ℕ) :=
  constraints.map (fun row => (List.range n).filter (fun j => row.getD j 0 == -1))

/-- The list comprehension inside the dedup step
    `[x[[xx not in np.concatenate(idx_dep[:i]) for xx in x]] if i > 0 else x
    for i, x in enumerate(idx_dep)]`: drop from row `i`'s dependent indices
    those already produced by an earlier row.  (The inner
    `np.concatenate(idx_dep[:i])` is only evaluated for `i > 0`, where its
    argument is nonempty, so it is modelled as plain concatenation.) -/
def dedup_lists (L : List (List ℕ)) : List (List ℕ) :=
  L.enum.map (fun pr =>
    if pr.1 = 0 then pr.2
    else pr.2.filter (fun xx => !((L.take pr.1).flatten.contains xx)))

/-- `np.concatenate` over a list of arrays: raises
    `ValueError: need at least one array to concatenate` on an empty list. -/
def np_concatenate (L : List (List ℕ)) : Except PyErr (List ℕ) :=
  if L.isEmpty then
    .error (.valueError "need at least one array to concatenate")
  else
    .ok L.flatten

/-- The deduplicated dependent-column list,
    `idx_dep = np.concatenate([... for i, x in enumerate(idx_dep)])`:
    for a zero-row constraint matrix the outer `np.concatenate` receives an
    empty list and raises. -/
def idx_dep (n : ℕ) (constraints : List (List ℚ)) : Except PyErr (List ℕ) :=
  np_concatenate (dedup_lists (idx_dep_rows n constraints))

/-- One feature column of
    `tf.matmul(-constraints[[i]][:, idx_var_i], x)`: the gathered, negated
    row coefficients paired against the rows of `x`. -/
def dep_dot (row : List ℚ) (idxs : List ℕ) (x : List ℚ) : ℚ :=
  (List.zipWith (fun j v => -(row.getD j 0) * v) idxs x).sum

/-- The first `k` iterations of the reconstruction loop
    `for i in range(constraints.shape[0]): x = tf.concat([x,
    tf.matmul(constraint_model, x)], axis=0)` with
    `idx_var_i = np.concatenate([idx_indep, idx_dep[:i]])`, over the
    already-computed index arrays `idxI` (`idx_indep`) and `idxDep`
    (`idx_dep`). -/
def build_k (idxI idxDep : List ℕ) (constraints : List (List ℚ)) (x0 : List ℚ)
    (k : ℕ) : List ℚ :=
  (List.range k).foldl
    (fun x i => x ++ [dep_dot (constraints.getD i []) (idxI ++ idxDep.take i) x])
    x0

/-- `np.argsort`: the indices of the vector ordered by value (on distinct
    values the result is independent of the sorting algorithm; a stable sort
    is used here). -/
def argsort (l : List ℕ) : List ℕ :=
  (List.range l.length).insertionSort (fun a b => l.getD a 0 ≤ l.getD b 0)

/-- One feature column of `tf.gather(x, indices, axis=0)`. -/
def gather (x : List ℚ) (idxs : List ℕ) : List ℚ :=
  idxs.map (fun i => x.getD i 0)

/-- `apply_constraints`, one feature column, statement for statement in
    source order: the index computations (including the `idx_dep` dedup,
    whose outer `np.concatenate` raises on a zero-row constraint matrix in
    every argument configuration) run first; then the variable-argument
    branch; then the reconstruction loop; then the final argsort reorder.
    When neither tensor is given the branch sets `x = var_indep = None` and
    proceeds; the `None` then flows into the first loop iteration's
    `tf.matmul` (or, with no constraint rows — unreachable past the dedup —
    into the final `tf.gather`), which raises there, modelled as a
    `typeError` naming the tensorflow op that receives the `None`. -/
def apply_constraints (n : ℕ) (constraints : List (List ℚ))
    (var_all var_indep : Option (List ℚ)) : Except PyErr (List ℚ) :=
  match idx_dep n constraints with
  | .error e => .error e
  | .ok idxDep =>
    let x0 : Except PyErr (Option (List ℚ)) :=
      match var_all, var_indep with
      | none, vi => .ok vi
      | some va, none => .ok (some (gather va (idx_indep n constraints)))
      | some _, some _ =>
          .error (.valueError "only give var_all or var_indep to apply_constraints.")
    match x0 with
    | .error e => .error e
    | .ok none =>
        if constraints.length = 0 then
          .error (.typeError "tf.gather: params tensor is None")
        else
          .error (.typeError "tf.matmul: tensor is None")
    | .ok (some x) =>
        .ok (gather (build_k (idx_indep n constraints) idxDep constraints x
              constraints.length)
          (argsort (idx_indep n constraints ++ idxDep)))

/-- Well-formedness of a constraint matrix in the claim's sense, with `d i`
    the dependent column of row `i`: rows have length `n`; each row has
    exactly one `-1`, at column `d i < n`; dependent columns are unique
    across rows; and a row's nonzero entry in a dependent column refers only
    to a column defined by an earlier row (strictly forward dependencies). -/
def WellFormed (n : ℕ) (C : List (List ℚ)) (d : ℕ → ℕ) : Prop :=
  (∀ row ∈ C, row.length = n) ∧
    (∀ i ∈ List.range C.length, d i < n ∧ centry C i (d i) = -1) ∧
    (∀ i ∈ List.range C.length, ∀ j ∈ List.range n, centry C i j = -1 → j = d i) ∧
    (∀ i ∈ List.range C.length, ∀ i' ∈ List.range C.length, d i = d i' → i = i') ∧
    (∀ i ∈ List.range C.length, ∀ i' ∈ List.range C.length, i < i' →
      centry C i (d i') = 0)

/-! ## Optimizer dispatch
    (src/batchglm/train/tf/train.py, `MultiTrainer.train_op_by_name`) -/

/-- The train ops held by a `MultiTrainer` after `__init__`; `Op` abstracts
    tensorflow op objects and `none` models an op not provided.  There is no
    `train_op_bfgs` field: the constructor's BFGS block is commented out and
    never assigns that attribute. -/
structure MultiTrainerOps (Op : Type) where
  train_op_GD : Option Op
  train_op_Adam : Option Op
  train_op_Adagrad : Option Op
  train_op_RMSProp : Option Op
  train_op_nr : Option Op
  train_op_nr_tr : Option Op
  train_op_irls : Option Op
  train_op_irls_tr : Option Op

/-- Python's `str.lower()` (ASCII-relevant part), used by
    `train_op_by_name`. -/
def py_lower (s : String) : String := ⟨s.data.map Char.toLower⟩

/-- `MultiTrainer.train_op_by_name`, branch for branch.  In the
    irls-trust-region branch the source consults and returns
    `self.train_op_irls` (not `self.train_op_irls_tr`); the `"bfgs"` branch
    reads the never-assigned attribute `self.train_op_bfgs`. -/
def train_op_by_name {Op : Type} (t : MultiTrainerOps Op) (name : String) :
    Except PyErr Op :=
  let name_lower := py_lower name
  if name_lower = "gradient_descent" ∨ name_lower = "gd" then
    match t.train_op_GD with
    | none => .error (.valueError "Gradient decent not provided in initialization.")
    | some op => .ok op
  else if name_lower = "adam" then
    match t.train_op_Adam with
    | none => .error (.valueError "Adam not provided in initialization.")
    | some op => .ok op
  else if name_lower = "adagrad" then
    match t.train_op_Adagrad with
    | none => .error (.valueError "Adagrad decent not provided in initialization.")
    | some op => .ok op
  else if name_lower = "rmsprop" then
    match t.train_op_RMSProp with
    | none => .error (.valueError "RMSProp decent not provided in initialization.")
    | some op => .ok op
  else if name_lower = "bfgs" then
    .error (.attributeError "train_op_bfgs")
  else if name_lower = "newton" ∨ name_lower = "newton-raphson" ∨
      name_lower = "newton_raphson" ∨ name_lower = "nr" then
    match t.train_op_nr with
    | none => .error (.valueError "Newton-rhapson not provided in initialization.")
    | some op => .ok op
  else if name_lower = "newton-trust-region" ∨ name_lower = "newton_trust_region" ∨
      name_lower = "newton-raphson-trust-region" ∨
      name_lower = "newton_raphson_trust_region" ∨
      name_lower = "newton_tr" ∨ name_lower = "nr_tr" then
    match t.train_op_nr_tr with
    | none => .error
        (.valueError "Newton-rhapson trust-region not provided in initialization.")
    | some op => .ok op
  else if name_lower = "irls" ∨ name_lower = "iwls" then
    match t.train_op_irls with
    | none => .error (.valueError "IRLS not provided in initialization.")
    | some op => .ok op
  else if name_lower = "irls_tr" ∨ name_lower = "iwls_tr" ∨
      name_lower = "irls_trust_region" ∨ name_lower = "iwls_trust_region" ∨
      name_lower = "irls-trust-region" ∨ name_lower = "iwls-trust-region" then
    match t.train_op_irls with
    | none => .error (.valueError "IRLS not provided in initialization.")
    | some op => .ok op
  else
    .error (.valueError ("Unknown optimizer " ++ name))

/-- A trainer with all eight ops built, pairwise distinct (`Op := ℕ`). -/
def multiTrainerOpsTest : MultiTrainerOps ℕ :=
  { train_op_GD := some 0
    train_op_Adam := some 1
    train_op_Adagrad := some 2
    train_op_RMSProp := some 3
    train_op_nr := some 4
    train_op_nr_tr := some 5
    train_op_irls := some 6
    train_op_irls_tr := some 7 }

/-! ## Convergence monitor
    (src/batchglm/train/tf/train.py, `StopAtLossHook`) -/

/-- The mutable state of `StopAtLossHook`.  Loss values are modelled as
    finite rationals; `last_loss = none` models the initial
    `self._last_loss = None` (whose `loss_change` is `np.inf`). -/
structure StopHookState where
  loss_history : List ℚ
  last_step : ℕ
  last_loss : Option ℚ
  min_loss_change : ℚ

/-- `np.mean` of a list of finite values. -/
def npMean (l : List ℚ) : ℚ := l.sum / l.length

/-- The `loss_change` property: `np.inf` (modelled `none`) while
    `_last_loss is None`, else `np.abs(_last_loss - np.mean(_loss_history))`. -/
def hook_loss_change (s : StopHookState) : Option ℚ :=
  match s.last_loss with
  | none => none
  | some l => some |l - npMean s.loss_history|

/-- `_update_loss_change`: at a window boundary record the window mean as
    `_last_loss`, then overwrite the ring-buffer slot `step % size`. -/
def update_loss_change (s : StopHookState) (step : ℕ) (loss_value : ℚ) :
    StopHookState :=
  let s' := if step % s.loss_history.length = 0 then
      { s with last_loss := some (npMean s.loss_history) }
    else s
  { s' with loss_history := s'.loss_history.set (step % s'.loss_history.length) loss_value }

/-- The body of `after_run` below the value extraction (source lines
    193-202): when the step counter has advanced, request a stop if the loss
    change is below `min_loss_change`, then update `_last_step` and the loss
    history.  Returns the new state and whether
    `run_context.request_stop()` was called. -/
def after_run_body (s : StopHookState) (global_step : ℕ) (loss : ℚ) :
    StopHookState × Bool :=
  if global_step ≥ s.last_step then
    let stop := match hook_loss_change s with
      | none => false
      | some c => decide (c < s.min_loss_change)
    let s' := { s with last_step := global_step }
    (update_loss_change s' global_step loss, stop)
  else (s, false)

/-- `tf.train.SessionRunValues`, the namedtuple handed to `after_run`: its
    fields are `results`, `options` and `run_metadata`.  Only `results` is
    modelled — it holds the values of the tensors requested by `before_run`
    (here the pair `("global_step", "loss")`); `options` and `run_metadata`
    carry non-dict run options/metadata never read by this hook. -/
structure SessionRunValues where
  results : ℕ × ℚ

/-- Attribute lookup on `SessionRunValues`: only the dict-valued field
    `results` is available under its name; any other attribute name raises
    `AttributeError` (in particular `summary`, which is not a field of the
    namedtuple). -/
def session_run_values_getattr (rv : SessionRunValues) (a : String) :
    Except PyErr (ℕ × ℚ) :=
  if a = "results" then .ok rv.results
  else .error (.attributeError ("SessionRunValues object has no attribute " ++ a))

/-- `StopAtLossHook.after_run`, source lines 189-202: it first extracts
    `global_step = run_values.summary["global_step"]` and
    `loss = run_values.summary["loss"]` — but `summary` is not an attribute
    of `SessionRunValues` (the sibling `TimedRunHook.after_run` reads
    `run_values.results`), so the extraction raises before the body runs. -/
def hook_after_run (s : StopHookState) (run_values : SessionRunValues) :
    Except PyErr (StopHookState × Bool) :=
  match session_run_values_getattr run_values "summary" with
  | .error e => .error e
  | .ok summary =>
      let global_step := summary.1
      let loss := summary.2
      .ok (after_run_body s global_step loss)

/-- A hook state whose two-step window is saturated with the constant loss 5
    and whose previous-window mean was recorded as 5. -/
def stopHookStateTest : StopHookState :=
  { loss_history := [5, 5]
    last_step := 2
    last_loss := some 5
    min_loss_change := 1/1000 }

/-! ## Gradient fallback of `MultiTrainer.__init__`
    (src/batchglm/train/tf/train.py, lines 267–275)

    The constructor's tensorflow-gradient fallback is embedded with explicit
    Python name-resolution: every name the right-hand sides read is looked up
    in the local environment, so that reading a local before its assignment
    completes surfaces as the unbound-name error Python raises. -/

/-- Python values crossing the embedded fragment. -/
inductive PyVal where
  | pynone
  | tensor (id : ℕ)
  | list (xs : List PyVal)
  | pair (a b : PyVal)

/-- `x is None`. -/
def PyVal.isNone : PyVal → Bool
  | .pynone => true
  | _ => false

/-- Python local-name lookup: an unassigned local raises an unbound-name
    error (`UnboundLocalError`, a `NameError`). -/
def lookup_name (env : List (String × PyVal)) (x : String) : Except PyErr PyVal :=
  match env.find? (fun p => p.1 == x) with
  | some p => .ok p.2
  | none => .error (.nameError x)

/-- `zip(a, b)` on Python values. -/
def py_zip : PyVal → PyVal → Except PyErr PyVal
  | .list xs, .list ys => .ok (.list ((xs.zip ys).map (fun p => .pair p.1 p.2)))
  | _, _ => .error (.typeError "zip argument is not iterable")

/-- The comprehension body `[(g, v) for g, v in z]`: unpack each element as a
    pair. -/
def comp_pairs : PyVal → Except PyErr (List (PyVal × PyVal))
  | .list xs => xs.mapM (fun x => match x with
      | .pair g v => .ok (g, v)
      | _ => .error (.typeError "cannot unpack non-pair"))
  | _ => .error (.typeError "argument is not iterable")

/-- The gradient-selection prologue of `MultiTrainer.__init__`:
    when `gradients is None` and `variables` is given, the code assigns
    `plain_gradients = tf.gradients(loss, variables)` and then builds
    `plain_gradients_vars = [(g, v) for g, v in zip(plain_gradients_vars,
    variables)]`, whose iterable reads the very name being assigned. -/
def multi_trainer_gradients (tf_gradients : PyVal → PyVal → PyVal)
    (loss varsArg gradients : PyVal) : Except PyErr (List (PyVal × PyVal)) :=
  if gradients.isNone then
    if varsArg.isNone then
      .error (.valueError "Either variables and loss or gradients have to be specified")
    else
      let env : List (String × PyVal) :=
        [("loss", loss), ("variables", varsArg), ("gradients", gradients)]
      let env := ("plain_gradients", tf_gradients loss varsArg) :: env
      match lookup_name env "plain_gradients_vars", lookup_name env "variables" with
      | .error e, _ => .error e
      | _, .error e => .error e
      | .ok it, .ok vs =>
        match py_zip it vs with
        | .error e => .error e
        | .ok z => comp_pairs z
  else .ok [(gradients, varsArg)]

/-! ## Theorems: bounds clipper -/

lemma bounds_min_le_max (d : DtypeInfo) (hd : d.Valid) (name : ParamName) :
    bounds_min d name ≤ bounds_max d name := by
  obtain ⟨h1, h2, h3, h4, h5, h6⟩ := hd
  cases name <;> simp only [bounds_min, bounds_max]
  · exact (div_le_div_iff_of_pos_right h5).mpr (le_trans h1 h4)
  · exact (div_le_div_iff_of_pos_right h5).mpr (le_trans h1 h4)
  · exact (div_le_div_iff_of_pos_right h5).mpr (le_trans h1 h4)
  · exact (div_le_div_iff_of_pos_right h5).mpr (le_trans h1 h4)
  · calc d.smallestPos ≤ d.maxPrev := h3
      _ = d.maxPrev / 1 := (div_one _).symm
      _ ≤ d.maxPrev / d.sf := by
          apply div_le_div_of_nonneg_left (le_trans h2 h3) h5 h6
  · calc d.smallestPos ≤ d.maxPrev := h3
      _ = d.maxPrev / 1 := (div_one _).symm
      _ ≤ d.maxPrev / d.sf := by
          apply div_le_div_of_nonneg_left (le_trans h2 h3) h5 h6
  · exact zero_le_one
  · exact h1

lemma clip_by_value_mem (x lo hi : ℚ) (h : lo ≤ hi) :
    lo ≤ clip_by_value x lo hi ∧ clip_by_value x lo hi ≤ hi := by
  unfold clip_by_value
  constructor
  · exact le_min (le_max_right x lo) h
  · exact min_le_right _ _

lemma clip_by_value_idem (x lo hi : ℚ) (h : lo ≤ hi) :
    clip_by_value (clip_by_value x lo hi) lo hi = clip_by_value x lo hi := by
  unfold clip_by_value
  rcases le_total x lo with hx | hx
  · rw [max_eq_right hx, min_eq_left h, max_self, min_eq_left h]
  · rcases le_total x hi with hx2 | hx2
    · rw [max_eq_left hx, min_eq_left hx2, max_eq_left hx, min_eq_left hx2]
    · rw [max_eq_left hx, min_eq_right hx2, max_eq_left h, min_self]

/-- C8: for every named quantity and every input, the bounds clipper is
    idempotent — `clip (clip x) = clip x` — and its result lies within the
    derived bounds `bounds_min ≤ clip x ≤ bounds_max`, for any valid dtype. -/
theorem clip_param_idempotent_and_bounded (d : DtypeInfo) (hd : d.Valid)
    (name : ParamName) (x : ℚ) :
    tf_clip_param d (tf_clip_param d x name) name = tf_clip_param d x name ∧
      bounds_min d name ≤ tf_clip_param d x name ∧
        tf_clip_param d x name ≤ bounds_max d name := by
  have h := bounds_min_le_max d hd name
  exact ⟨clip_by_value_idem x _ _ h, clip_by_value_mem x _ _ h⟩

/-- Witness for C8 at a concrete dtype, name and input. -/
theorem clip_param_idempotent_and_bounded_witness :
    dtypeTest.Valid ∧
      (tf_clip_param dtypeTest (tf_clip_param dtypeTest 37 .log_mu) .log_mu =
          tf_clip_param dtypeTest 37 .log_mu ∧
        bounds_min dtypeTest .log_mu ≤ tf_clip_param dtypeTest 37 .log_mu ∧
          tf_clip_param dtypeTest 37 .log_mu ≤ bounds_max dtypeTest .log_mu) :=
  ⟨by refine ⟨?_, ?_, ?_, ?_, ?_, ?_⟩ <;> norm_num [dtypeTest],
    clip_param_idempotent_and_bounded dtypeTest
      (by refine ⟨?_, ?_, ?_, ?_, ?_, ?_⟩ <;> norm_num [dtypeTest]) .log_mu 37⟩

/-! ## Theorems: forward model -/

/-- C3 counterexample: at `design_loc·a = 20`, offset `5` and a dtype whose
    `log_mu` bounds are `[-10, 10]`, the code computes
    `clip(20 + 5) = 10`, while the claimed `clip(20) + 5 = 15`. -/
theorem log_mu_clip_order_counterexample :
    model_log_mu dtypeTest modelInputTest 0 0 = 10 ∧
      spec_log_mu dtypeTest modelInputTest 0 0 = 15 := by
  constructor <;>
    · simp only [model_log_mu, spec_log_mu, modelInputTest, matmul, tf_clip_param,
        clip_by_value, bounds_min, bounds_max, dtypeTest, Fin.sum_univ_one,
        min_def, max_def]
      norm_num

/-- C3 (amended): the optional size-factor offset is added to
    `design_loc · a` before clipping — `log_mu = clip(design_loc · a + offset)`
    when an offset is supplied (`log_mu = clip(design_loc · a)` otherwise) —
    and `mu = exp(log_mu)`. -/
theorem log_mu_offset_inside_clip {o f p q : ℕ} (d : DtypeInfo) (t : Transcendentals)
    (m : ModelInput o f p q) (ofs : Fin o → Fin f → ℚ)
    (h : m.size_factors = some ofs) (i : Fin o) (j : Fin f) :
    model_log_mu d m i j =
        tf_clip_param d (matmul m.design_loc m.a i j + ofs i j) .log_mu ∧
      model_mu d t m i j = t.exp (model_log_mu d m i j) := by
  constructor
  · simp only [model_log_mu, h]
  · rfl

/-- Witness for C3 (amended) at the concrete forward-model input. -/
theorem log_mu_offset_inside_clip_witness :
    model_log_mu dtypeTest modelInputTest 0 0 =
        tf_clip_param dtypeTest
          (matmul modelInputTest.design_loc modelInputTest.a 0 0 + 5) .log_mu ∧
      model_mu dtypeTest ⟨id, id, id⟩ modelInputTest 0 0 =
        id (model_log_mu dtypeTest modelInputTest 0 0) :=
  log_mu_offset_inside_clip dtypeTest ⟨id, id, id⟩ modelInputTest
    (fun _ _ => 5) rfl 0 0

/-- C7: the per-observation log-probability is the clipped negative-binomial
    log-density `lgamma(r+X) − lgamma(X+1) − lgamma(r) + X·(log_mu − log(r+mu))
    + r·(log_r − log(r+mu))` (with `mu = exp(log_mu)`, `r = exp(log_r)`); the
    log-likelihood is the per-feature sum over observations, the normalized
    log-likelihood the per-feature mean over observations, and the scalar loss
    the sum over features of the negated normalized log-likelihood. -/
theorem log_probs_and_aggregation {o f p q : ℕ} (d : DtypeInfo) (t : Transcendentals)
    (m : ModelInput o f p q) (i : Fin o) (j : Fin f) :
    model_mu d t m i j = t.exp (model_log_mu d m i j) ∧
      model_r d t m i j = t.exp (model_log_r d m i j) ∧
      model_log_probs d t m i j =
        tf_clip_param d
          (t.lgamma (model_r d t m i j + m.X i j) - t.lgamma (m.X i j + 1) -
              t.lgamma (model_r d t m i j) +
            m.X i j * (model_log_mu d m i j -
              t.log (model_r d t m i j + model_mu d t m i j)) +
            model_r d t m i j * (model_log_r d m i j -
              t.log (model_r d t m i j + model_mu d t m i j)))
          .log_probs ∧
      model_log_likelihood d t m j = ∑ i', model_log_probs d t m i' j ∧
      model_norm_log_likelihood d t m j =
        (∑ i', model_log_probs d t m i' j) / (o : ℚ) ∧
      model_loss d t m = ∑ j', - model_norm_log_likelihood d t m j' :=
  ⟨rfl, rfl, rfl, rfl, rfl, rfl⟩

/-! ## Theorems: trust-region step -/

lemma update_theta_false {P F : ℕ} (c : TrConfig) (s : TrInput P F) (i : Fin F)
    (h : ¬ (s.ll (theta_new s) i - s.ll s.vars i > c.eta0 ∧
        (s.ll (theta_new s) i - s.ll s.vars i) /
          s.nr_tr_pred_cost_gain i > c.eta1)) :
    update_theta c s i = false := by
  rcases Bool.eq_false_or_eq_true (update_theta c s i) with hb | hb
  · exact absurd
      (by simpa only [update_theta, delta_f_actual, delta_f_ratio,
        Bool.and_eq_true, decide_eq_true_eq] using hb) h
  · exact hb

/-- C1: per feature `i`, the candidate
    `theta_candidate = theta - radius * delta` is committed and
    `features_updated[i]` is set to `true` iff
    `actual_gain > eta0 ∧ ratio > eta1` (with
    `actual_gain = ll(theta_candidate) - ll(theta)` and
    `ratio = actual_gain / pred_gain`); otherwise column `i` is left
    unchanged and `features_updated[i]` is set to `false`. -/
theorem nr_tr_acceptance {P F : ℕ} (c : TrConfig) (s : TrInput P F) (i : Fin F) :
    ((train_op_nr_tr c s).2.2.1 i = true ↔
        s.ll (theta_new s) i - s.ll s.vars i > c.eta0 ∧
          (s.ll (theta_new s) i - s.ll s.vars i) /
            s.nr_tr_pred_cost_gain i > c.eta1) ∧
      ((s.ll (theta_new s) i - s.ll s.vars i > c.eta0 ∧
          (s.ll (theta_new s) i - s.ll s.vars i) /
            s.nr_tr_pred_cost_gain i > c.eta1) →
        ∀ pa : Fin P, (train_op_nr_tr c s).1 pa i =
          s.vars pa i - s.nr_tr_radius i * s.newton_tr_delta pa i) ∧
      (¬ (s.ll (theta_new s) i - s.ll s.vars i > c.eta0 ∧
          (s.ll (theta_new s) i - s.ll s.vars i) /
            s.nr_tr_pred_cost_gain i > c.eta1) →
        (∀ pa : Fin P, (train_op_nr_tr c s).1 pa i = s.vars pa i) ∧
          (train_op_nr_tr c s).2.2.1 i = false) := by
  refine ⟨?_, fun h pa => ?_, fun h => ⟨fun pa => ?_, ?_⟩⟩
  · simp [train_op_nr_tr, update_theta, delta_f_ratio, delta_f_actual]
  · have hb : update_theta c s i = true := by
      simp only [update_theta, delta_f_actual, delta_f_ratio, Bool.and_eq_true,
        decide_eq_true_eq]
      exact h
    simp only [train_op_nr_tr, theta_new_nr_tr, hb, if_true]
    rfl
  · have hb : update_theta c s i = false := update_theta_false c s i h
    simp [train_op_nr_tr, theta_new_nr_tr, hb]
  · have hb : update_theta c s i = false := update_theta_false c s i h
    simpa [train_op_nr_tr] using hb

/-- C5: per feature, the radius update is a function of the ratio and radius
    alone (applied regardless of acceptance), and follows exactly: if
    `ratio < eta1` the radius strictly shrinks to `radius * t1`; else if
    `ratio > eta2` it becomes `min (radius * t2) upper_bound`, never above
    `upper_bound`; else it is unchanged. -/
theorem nr_tr_radius_update {P F : ℕ} (c : TrConfig) (s : TrInput P F) (i : Fin F)
    (hr : 0 < s.nr_tr_radius i) (ht1' : c.t1 < 1) :
    (train_op_nr_tr c s).2.1 i =
        radius_update_rule c (delta_f_ratio s i) (s.nr_tr_radius i) ∧
      (delta_f_ratio s i < c.eta1 →
        (train_op_nr_tr c s).2.1 i = s.nr_tr_radius i * c.t1 ∧
          (train_op_nr_tr c s).2.1 i < s.nr_tr_radius i) ∧
      (¬ delta_f_ratio s i < c.eta1 → delta_f_ratio s i > c.eta2 →
        (train_op_nr_tr c s).2.1 i = min (s.nr_tr_radius i * c.t2) c.upper_bound ∧
          (train_op_nr_tr c s).2.1 i ≤ c.upper_bound) ∧
      (¬ delta_f_ratio s i < c.eta1 → ¬ delta_f_ratio s i > c.eta2 →
        (train_op_nr_tr c s).2.1 i = s.nr_tr_radius i) := by
  simp only [train_op_nr_tr, nr_tr_radius_new, radius_update_rule]
  refine ⟨trivial, fun h => ?_, fun h h2 => ?_, fun h h2 => ?_⟩
  · rw [if_pos h]
    exact ⟨rfl, mul_lt_of_lt_one_right hr ht1'⟩
  · rw [if_neg h, if_pos h2]
    exact ⟨rfl, min_le_right _ _⟩
  · rw [if_neg h, if_neg h2]

/-- Witness for C5 at a concrete configuration and step input. -/
theorem nr_tr_radius_update_witness :
    (0 : ℚ) < trInputTest.nr_tr_radius 0 ∧ trConfigTest.t1 < 1 ∧
      ((train_op_nr_tr trConfigTest trInputTest).2.1 0 =
          radius_update_rule trConfigTest (delta_f_ratio trInputTest 0)
            (trInputTest.nr_tr_radius 0) ∧
        (delta_f_ratio trInputTest 0 < trConfigTest.eta1 →
          (train_op_nr_tr trConfigTest trInputTest).2.1 0 =
              trInputTest.nr_tr_radius 0 * trConfigTest.t1 ∧
            (train_op_nr_tr trConfigTest trInputTest).2.1 0 <
              trInputTest.nr_tr_radius 0) ∧
        (¬ delta_f_ratio trInputTest 0 < trConfigTest.eta1 →
          delta_f_ratio trInputTest 0 > trConfigTest.eta2 →
          (train_op_nr_tr trConfigTest trInputTest).2.1 0 =
              min (trInputTest.nr_tr_radius 0 * trConfigTest.t2)
                trConfigTest.upper_bound ∧
            (train_op_nr_tr trConfigTest trInputTest).2.1 0 ≤
              trConfigTest.upper_bound) ∧
        (¬ delta_f_ratio trInputTest 0 < trConfigTest.eta1 →
          ¬ delta_f_ratio trInputTest 0 > trConfigTest.eta2 →
          (train_op_nr_tr trConfigTest trInputTest).2.1 0 =
            trInputTest.nr_tr_radius 0)) :=
  ⟨by norm_num [trInputTest], by norm_num [trConfigTest],
    nr_tr_radius_update trConfigTest trInputTest 0
      (by norm_num [trInputTest]) (by norm_num [trConfigTest])⟩

/-! ## Theorems: constraint reducer argument check -/

lemma filter_range_eq_singleton {p : ℕ → Bool} {n a : ℕ} (ha : a < n)
    (hp : p a = true) (huniq : ∀ j, j < n → p j = true → j = a) :
    (List.range n).filter p = [a] := by
  induction n with
  | zero => exact absurd ha (Nat.not_lt_zero a)
  | succ n ih =>
    rw [List.range_succ, List.filter_append]
    rcases Nat.lt_succ_iff_lt_or_eq.mp ha with h | h
    · have h1 : (List.range n).filter p = [a] :=
        ih h (fun j hj hpj => huniq j (Nat.lt_succ_of_lt hj) hpj)
      have h2 : p n = false := by
        rcases Bool.eq_false_or_eq_true (p n) with hb | hb
        · exact absurd (huniq n (Nat.lt_succ_self n) hb) (by omega)
        · exact hb
      simp [h1, h2]
    · subst h
      have h1 : (List.range a).filter p = [] := by
        rw [List.filter_eq_nil_iff]
        intro j hj hpj
        have h2 := huniq j (Nat.lt_succ_of_lt (List.mem_range.mp hj)) (by simpa using hpj)
        have h3 := List.mem_range.mp hj
        omega
      simp [h1, hp]

lemma centry_eq_get {C : List (List ℚ)} {i : ℕ} (h : i < C.length) (j : ℕ) :
    centry C i j = (C[i]).getD j 0 := by
  unfold centry
  rw [List.getD_eq_getElem _ _ h]

lemma idx_dep_rows_eq {n : ℕ} {C : List (List ℚ)} {d : ℕ → ℕ}
    (hwf : WellFormed n C d) :
    idx_dep_rows n C = (List.range C.length).map (fun i => [d i]) := by
  obtain ⟨-, h2, h3, -, -⟩ := hwf
  apply List.ext_getElem
  · simp [idx_dep_rows]
  · intro i hi1 hi2
    simp only [idx_dep_rows, List.getElem_map, List.getElem_range]
    have him : i < C.length := by simpa [idx_dep_rows] using hi1
    have himr : i ∈ List.range C.length := List.mem_range.mpr him
    apply filter_range_eq_singleton (h2 i himr).1
    · rw [beq_iff_eq, ← centry_eq_get him]
      exact (h2 i himr).2
    · intro j hj hpj
      rw [beq_iff_eq, ← centry_eq_get him] at hpj
      exact h3 i himr j (List.mem_range.mpr hj) hpj

lemma flatten_singletons {α : Type} (l : List α) (f : α → ℕ) :
    (l.map (fun a => [f a])).flatten = l.map f := by
  induction l with
  | nil => rfl
  | cons a t ih => simp [ih]

lemma dedup_lists_flatten_of_nodup (L : List (List ℕ)) (h : L.flatten.Nodup) :
    (dedup_lists L).flatten = L.flatten := by
  induction L using List.reverseRecOn with
  | nil => rfl
  | append_singleton L' b ih =>
    have hflat : (L' ++ [b]).flatten = L'.flatten ++ b := by simp
    have hnd : (L'.flatten ++ b).Nodup := by rw [← hflat]; exact h
    have hndL' : L'.flatten.Nodup := (List.nodup_append.mp hnd).1
    have hdisj : ∀ xx ∈ b, xx ∉ L'.flatten := by
      intro xx hxx hmem
      exact (List.nodup_append.mp hnd).2.2 hmem hxx
    unfold dedup_lists
    rw [List.enum_append, List.enumFrom_singleton, List.map_append,
      List.flatten_append]
    have hmain : (L'.enum.map (fun pr =>
        if pr.1 = 0 then pr.2
        else pr.2.filter (fun xx => !(((L' ++ [b]).take pr.1).flatten.contains xx)))) =
        (L'.enum.map (fun pr =>
        if pr.1 = 0 then pr.2
        else pr.2.filter (fun xx => !((L'.take pr.1).flatten.contains xx)))) := by
      apply List.map_congr_left
      intro pr hpr
      have hlt : pr.1 < L'.length := List.fst_lt_of_mem_enum hpr
      rw [List.take_append_of_le_length (le_of_lt hlt)]
    rw [hmain]
    have hlast : (if L'.length = 0 then b
        else b.filter (fun xx => !(((L' ++ [b]).take L'.length).flatten.contains xx))) = b := by
      by_cases hL : L'.length = 0
      · simp [hL]
      · rw [if_neg hL, List.take_append_of_le_length (le_refl _), List.take_length]
        apply List.filter_eq_self.mpr
        intro xx hxx
        simpa using hdisj xx hxx
    simp only [List.map_cons, List.map_nil, List.flatten_cons, List.flatten_nil,
      List.append_nil]
    rw [hlast]
    unfold dedup_lists at ih
    rw [ih hndL', hflat]

lemma dedup_lists_length (L : List (List ℕ)) :
    (dedup_lists L).length = L.length := by
  unfold dedup_lists
  simp

lemma dedup_lists_idx_dep_rows_not_empty {n : ℕ} {C : List (List ℚ)}
    (hne : C ≠ []) :
    ¬ ((dedup_lists (idx_dep_rows n C)).isEmpty = true) := by
  rw [List.isEmpty_iff]
  intro hcontra
  have hlen := dedup_lists_length (idx_dep_rows n C)
  rw [hcontra] at hlen
  simp only [List.length_nil] at hlen
  have hrl : (idx_dep_rows n C).length = C.length := by
    unfold idx_dep_rows
    simp
  exact hne (List.length_eq_zero.mp (by omega))

lemma idx_dep_empty (n : ℕ) :
    idx_dep n ([] : List (List ℚ)) =
      .error (.valueError "need at least one array to concatenate") := rfl

lemma idx_dep_eq {n : ℕ} {C : List (List ℚ)} {d : ℕ → ℕ}
    (hwf : WellFormed n C d) (hne : C ≠ []) :
    idx_dep n C = .ok ((List.range C.length).map d) := by
  have hrows := idx_dep_rows_eq hwf
  have hinj : ∀ x ∈ List.range C.length, ∀ y ∈ List.range C.length,
      d x = d y → x = y := fun x hx y hy => hwf.2.2.2.1 x hx y hy
  have hnd : ((List.range C.length).map d).Nodup :=
    List.Nodup.map_on hinj (List.nodup_range _)
  have hflatnd : (idx_dep_rows n C).flatten.Nodup := by
    rw [hrows, flatten_singletons]
    exact hnd
  have hnonempty : ¬ ((dedup_lists (idx_dep_rows n C)).isEmpty = true) :=
    dedup_lists_idx_dep_rows_not_empty hne
  unfold idx_dep np_concatenate
  rw [if_neg hnonempty, dedup_lists_flatten_of_nodup _ hflatnd, hrows,
    flatten_singletons]

lemma mem_idx_indep {n : ℕ} {C : List (List ℚ)} {j : ℕ} :
    j ∈ idx_indep n C ↔ j < n ∧ ∀ i, i < C.length → centry C i j ≠ -1 := by
  unfold idx_indep
  rw [List.mem_filter, List.mem_range]
  constructor
  · rintro ⟨h1, h2⟩
    refine ⟨h1, fun i hi hc => ?_⟩
    rw [List.all_eq_true] at h2
    have := h2 (C[i]) (List.getElem_mem hi)
    rw [bne_iff_ne] at this
    exact this (by rw [← centry_eq_get hi]; exact hc)
  · rintro ⟨h1, h2⟩
    refine ⟨h1, ?_⟩
    rw [List.all_eq_true]
    intro row hrow
    obtain ⟨i, hi, rfl⟩ := List.getElem_of_mem hrow
    rw [bne_iff_ne]
    intro hc
    exact h2 i hi (by rw [centry_eq_get hi]; exact hc)

lemma idx_indep_nodup {n : ℕ} {C : List (List ℚ)} : (idx_indep n C).Nodup :=
  List.Nodup.filter _ (List.nodup_range _)

lemma colperm_nodup {n : ℕ} {C : List (List ℚ)} {d : ℕ → ℕ}
    (hwf : WellFormed n C d) :
    (idx_indep n C ++ (List.range C.length).map d).Nodup := by
  rw [List.nodup_append]
  refine ⟨idx_indep_nodup, List.Nodup.map_on
    (fun x hx y hy => hwf.2.2.2.1 x hx y hy) (List.nodup_range _), ?_⟩
  intro a ha hb
  obtain ⟨i, hi, rfl⟩ := List.mem_map.mp hb
  have hi' : i < C.length := List.mem_range.mp hi
  exact (mem_idx_indep.mp ha).2 i hi' (hwf.2.1 i hi).2

lemma mem_colperm {n : ℕ} {C : List (List ℚ)} {d : ℕ → ℕ}
    (hwf : WellFormed n C d) (j : ℕ) :
    j ∈ idx_indep n C ++ (List.range C.length).map d ↔ j < n := by
  rw [List.mem_append]
  constructor
  · rintro (h | h)
    · exact (mem_idx_indep.mp h).1
    · obtain ⟨i, hi, rfl⟩ := List.mem_map.mp h
      exact (hwf.2.1 i hi).1
  · intro hj
    by_cases hmem : j ∈ idx_indep n C
    · exact Or.inl hmem
    · right
      rw [mem_idx_indep] at hmem
      push_neg at hmem
      obtain ⟨i, hi, hc⟩ := hmem hj
      have : j = d i := hwf.2.2.1 i (List.mem_range.mpr hi) j (List.mem_range.mpr hj) hc
      exact List.mem_map.mpr ⟨i, List.mem_range.mpr hi, this.symm⟩

lemma colperm_perm_range {n : ℕ} {C : List (List ℚ)} {d : ℕ → ℕ}
    (hwf : WellFormed n C d) :
    List.Perm (idx_indep n C ++ (List.range C.length).map d) (List.range n) := by
  apply List.Subperm.antisymm
  · exact (colperm_nodup hwf).subperm
      (fun a ha => List.mem_range.mpr ((mem_colperm hwf a).mp ha))
  · exact (List.nodup_range n).subperm
      (fun a ha => (mem_colperm hwf a).mpr (List.mem_range.mp ha))

lemma colperm_length {n : ℕ} {C : List (List ℚ)} {d : ℕ → ℕ}
    (hwf : WellFormed n C d) :
    (idx_indep n C).length + C.length = n := by
  have h := (colperm_perm_range hwf).length_eq
  simpa using h

lemma eq_of_perm_of_map_eq {l₁ l₂ : List ℕ} (key : ℕ → ℕ)
    (hperm : List.Perm l₁ l₂) (hmap : l₁.map key = l₂.map key)
    (hinj : ∀ a ∈ l₁, ∀ b ∈ l₁, key a = key b → a = b) : l₁ = l₂ := by
  induction l₁ generalizing l₂ with
  | nil => exact (hperm.symm.eq_nil).symm
  | cons a t ih =>
    cases l₂ with
    | nil => exact absurd hperm.eq_nil (by simp)
    | cons b t₂ =>
      simp only [List.map_cons, List.cons.injEq] at hmap
      have hb_mem : b ∈ a :: t := hperm.mem_iff.mpr (List.mem_cons_self b t₂)
      have hba : a = b := hinj a (List.mem_cons_self a t) b hb_mem hmap.1
      subst hba
      have hperm' : List.Perm t t₂ := hperm.cons_inv
      rw [ih hperm' hmap.2
        (fun x hx y hy => hinj x (List.mem_cons_of_mem a hx) y (List.mem_cons_of_mem a hy))]

lemma argsort_of_perm_range {n : ℕ} {l : List ℕ}
    (hperm : List.Perm l (List.range n)) :
    argsort l = (List.range n).map (fun j => l.indexOf j) := by
  have hn : l.length = n := by simpa using hperm.length_eq
  have hnd : l.Nodup := hperm.nodup_iff.mpr (List.nodup_range n)
  have hmeml : ∀ j, j < n → j ∈ l :=
    fun j hj => hperm.mem_iff.mpr (List.mem_range.mpr hj)
  have hidxlt : ∀ j, j < n → l.indexOf j < l.length :=
    fun j hj => List.indexOf_lt_length.mpr (hmeml j hj)
  have hgetD_idx : ∀ j, j < n → l.getD (l.indexOf j) 0 = j := by
    intro j hj
    rw [List.getD_eq_getElem _ _ (hidxlt j hj)]
    exact List.getElem_indexOf _
  haveI instTot : IsTotal ℕ (fun a b => l.getD a 0 ≤ l.getD b 0) :=
    ⟨fun a b => le_total _ _⟩
  haveI instTrans : IsTrans ℕ (fun a b => l.getD a 0 ≤ l.getD b 0) :=
    ⟨fun a b c hab hbc => le_trans hab hbc⟩
  have hA : List.Perm (argsort l) (List.range n) := by
    unfold argsort
    rw [hn]
    exact List.perm_insertionSort _ _
  have hTnd : ((List.range n).map (fun j => l.indexOf j)).Nodup := by
    apply List.Nodup.map_on ?_ (List.nodup_range n)
    intro x hx y hy hxy
    have hx' := List.mem_range.mp hx
    have hy' := List.mem_range.mp hy
    have h1 := hgetD_idx x hx'
    rw [hxy, hgetD_idx y hy'] at h1
    exact h1.symm
  have hTsub : ((List.range n).map (fun j => l.indexOf j)) ⊆ List.range n := by
    intro a ha
    obtain ⟨j, hj, rfl⟩ := List.mem_map.mp ha
    exact List.mem_range.mpr (hn ▸ hidxlt j (List.mem_range.mp hj))
  have hT : List.Perm ((List.range n).map (fun j => l.indexOf j)) (List.range n) :=
    (hTnd.subperm hTsub).perm_of_length_le (by simp)
  have hAT : List.Perm (argsort l) ((List.range n).map (fun j => l.indexOf j)) :=
    hA.trans hT.symm
  have hAs : List.Sorted (fun a b => l.getD a 0 ≤ l.getD b 0) (argsort l) :=
    List.sorted_insertionSort _ _
  have hTs : List.Sorted (fun a b => l.getD a 0 ≤ l.getD b 0)
      ((List.range n).map (fun j => l.indexOf j)) := by
    rw [List.Sorted, List.pairwise_map]
    apply List.Pairwise.imp_of_mem ?_ (List.pairwise_le_range n)
    intro a b ha hb hab
    rw [hgetD_idx a (List.mem_range.mp ha), hgetD_idx b (List.mem_range.mp hb)]
    exact hab
  have hs1 : List.Sorted (· ≤ ·) ((argsort l).map (fun t => l.getD t 0)) := by
    rw [List.Sorted, List.pairwise_map]
    exact hAs
  have hs2 : List.Sorted (· ≤ ·)
      (((List.range n).map (fun j => l.indexOf j)).map (fun t => l.getD t 0)) := by
    rw [List.Sorted, List.pairwise_map]
    exact hTs
  have hmap : (argsort l).map (fun t => l.getD t 0) =
      ((List.range n).map (fun j => l.indexOf j)).map (fun t => l.getD t 0) :=
    List.eq_of_perm_of_sorted (hAT.map _) hs1 hs2
  have hkeyinj : ∀ a ∈ argsort l, ∀ b ∈ argsort l,
      (fun t => l.getD t 0) a = (fun t => l.getD t 0) b → a = b := by
    intro a ha b hb hab
    have ha' : a < n := List.mem_range.mp (hA.mem_iff.mp ha)
    have hb' : b < n := List.mem_range.mp (hA.mem_iff.mp hb)
    simp only at hab
    rw [List.getD_eq_getElem _ _ (by omega : a < l.length),
      List.getD_eq_getElem _ _ (by omega : b < l.length)] at hab
    exact (hnd.getElem_inj_iff).mp hab
  exact eq_of_perm_of_map_eq _ hAT hmap hkeyinj

lemma build_k_succ {idxI idxDep : List ℕ} {C : List (List ℚ)} {x0 : List ℚ}
    {k : ℕ} :
    build_k idxI idxDep C x0 (k+1) = build_k idxI idxDep C x0 k ++
      [dep_dot (C.getD k []) (idxI ++ idxDep.take k)
        (build_k idxI idxDep C x0 k)] := by
  unfold build_k
  rw [List.range_succ, List.foldl_append]
  rfl

lemma build_k_length {idxI idxDep : List ℕ} {C : List (List ℚ)} {x0 : List ℚ}
    {k : ℕ} :
    (build_k idxI idxDep C x0 k).length = x0.length + k := by
  induction k with
  | zero => rfl
  | succ k ih =>
    rw [build_k_succ, List.length_append, ih]
    simp
    omega

lemma build_k_getD_stable {idxI idxDep : List ℕ} {C : List (List ℚ)}
    {x0 : List ℚ} {k k' t : ℕ} (hk : k ≤ k') (ht : t < x0.length + k) :
    (build_k idxI idxDep C x0 k').getD t 0 =
      (build_k idxI idxDep C x0 k).getD t 0 := by
  induction k', hk using Nat.le_induction with
  | base => rfl
  | succ k' hk ih =>
    rw [build_k_succ, List.getD_append]
    · exact ih
    · rw [build_k_length]
      omega

lemma build_k_getD_new {idxI idxDep : List ℕ} {C : List (List ℚ)} {x0 : List ℚ}
    {k : ℕ} :
    (build_k idxI idxDep C x0 (k+1)).getD (x0.length + k) 0 =
      dep_dot (C.getD k []) (idxI ++ idxDep.take k)
        (build_k idxI idxDep C x0 k) := by
  rw [build_k_succ, List.getD_append_right _ _ _ _ (by rw [build_k_length])]
  rw [build_k_length]
  simp

lemma zipWith_sum_eq (g : ℕ → ℚ → ℚ) (idxs : List ℕ) :
    ∀ (x : List ℚ), x.length = idxs.length →
    (List.zipWith g idxs x).sum =
      ∑ t in Finset.range idxs.length, g (idxs.getD t 0) (x.getD t 0) := by
  induction idxs with
  | nil =>
    intro x hx
    simp
  | cons j idxs ih =>
    intro x hx
    cases x with
    | nil => simp at hx
    | cons v x' =>
      simp only [List.zipWith_cons_cons, List.sum_cons]
      rw [ih x' (by simpa using hx), List.length_cons, Finset.sum_range_succ']
      simp only [List.getD_cons_succ, List.getD_cons_zero]
      rw [add_comm]

/-- C2 (amended): for any well-formed, nonempty constraint matrix, the
    reconstructed full tensor satisfies every constraint row in the sense
    that the linear
    combination with the row's `−1` entry replaced by `+1` sums to exactly
    zero (the dependent parameter equals the negative of the row-weighted sum
    of the parameters it references); the output has one row per design
    column and is reordered by the argsort of the concatenated index lists so
    that row `k` corresponds to design-matrix column `k` — in particular each
    independent parameter lands at its own design column.  (A zero-row
    constraint matrix never reaches reconstruction: `apply_constraints`
    raises at the `idx_dep` dedup, see the C6 theorem.) -/
theorem apply_constraints_rows_and_order
    {n : ℕ} {C : List (List ℚ)} {d : ℕ → ℕ} (hwf : WellFormed n C d)
    (hne : C ≠ [])
    (var_indep : List ℚ) (hlen : var_indep.length = (idx_indep n C).length) :
    ∃ full : List ℚ,
      apply_constraints n C none (some var_indep) = .ok full ∧
      full.length = n ∧
      (∀ i, i < C.length →
        (∑ j in Finset.range n,
          (if j = d i then 1 else centry C i j) * full.getD j 0) = 0) ∧
      (∀ t, t < (idx_indep n C).length →
        full.getD ((idx_indep n C).getD t 0) 0 = var_indep.getD t 0) := by
  set m := C.length with hm
  set P := (idx_indep n C).length with hP
  set perm := idx_indep n C ++ (List.range m).map d with hperm_def
  have hdep : idx_dep n C = .ok ((List.range m).map d) := idx_dep_eq hwf hne
  have hpermR : List.Perm perm (List.range n) := colperm_perm_range hwf
  have hpermlen : perm.length = n := by simpa using hpermR.length_eq
  have hPm : P + m = n := colperm_length hwf
  have hnd : perm.Nodup := colperm_nodup hwf
  set xfull := build_k (idx_indep n C) ((List.range m).map d) C var_indep m
    with hxfull
  have hxlen : xfull.length = P + m := by
    rw [hxfull, build_k_length, hlen]
  have hres : apply_constraints n C none (some var_indep) =
      .ok (gather xfull (argsort perm)) := by
    unfold apply_constraints
    rw [hdep]
  have hargsort : argsort perm = (List.range n).map (fun j => perm.indexOf j) :=
    argsort_of_perm_range hpermR
  have hfull_getD : ∀ j, j < n →
      (gather xfull (argsort perm)).getD j 0 = xfull.getD (perm.indexOf j) 0 := by
    intro j hj
    unfold gather
    rw [hargsort, List.map_map]
    rw [List.getD_eq_getElem _ _ (by simpa using hj)]
    simp
  have hval_lt : ∀ t, t < n → perm.getD t 0 < n := by
    intro t ht
    have hmem : perm.getD t 0 ∈ perm := by
      rw [List.getD_eq_getElem _ _ (by omega : t < perm.length)]
      exact List.getElem_mem _
    exact (mem_colperm hwf _).mp hmem
  have hidx_inj : ∀ t t', t < n → t' < n →
      perm.getD t 0 = perm.getD t' 0 → t = t' := by
    intro t t' ht ht' h
    rw [List.getD_eq_getElem _ _ (by omega : t < perm.length),
      List.getD_eq_getElem _ _ (by omega : t' < perm.length)] at h
    exact hnd.getElem_inj_iff.mp h
  have hindexOf_getD : ∀ t, t < n → perm.indexOf (perm.getD t 0) = t := by
    intro t ht
    have h1 : perm.getD t 0 ∈ perm := by
      rw [List.getD_eq_getElem _ _ (by omega : t < perm.length)]
      exact List.getElem_mem _
    have h2 : perm.indexOf (perm.getD t 0) < perm.length :=
      List.indexOf_lt_length.mpr h1
    apply hidx_inj _ _ (by omega) ht
    rw [List.getD_eq_getElem _ _ h2]
    exact List.getElem_indexOf _
  have hperm_getD_right : ∀ i, i < m → perm.getD (P + i) 0 = d i := by
    intro i hi
    rw [hperm_def, List.getD_append_right _ _ _ _ (by omega : (idx_indep n C).length ≤ P + i)]
    have he : P + i - (idx_indep n C).length = i := by omega
    rw [he, List.getD_eq_getElem _ _ (by simpa using hi)]
    simp
  have hentry : ∀ i, i < m → xfull.getD (P + i) 0 =
      - ∑ t in Finset.range (P + i), centry C i (perm.getD t 0) * xfull.getD t 0 := by
    intro i hi
    have h1 : xfull.getD (P + i) 0 =
        (build_k (idx_indep n C) ((List.range m).map d) C var_indep (i+1)).getD
          (P + i) 0 := by
      rw [hxfull]
      exact build_k_getD_stable (by omega) (by rw [hlen]; omega)
    have h2 := @build_k_getD_new (idx_indep n C) ((List.range m).map d) C
      var_indep i
    rw [hlen] at h2
    have hS_len : (idx_indep n C ++ ((List.range m).map d).take i).length = P + i := by
      simp
      omega
    have hx_len :
        (build_k (idx_indep n C) ((List.range m).map d) C var_indep i).length =
          P + i := by
      rw [build_k_length, hlen]
    rw [h1, h2]
    unfold dep_dot
    rw [zipWith_sum_eq _ _ _ (by rw [hx_len, hS_len]), hS_len]
    rw [← Finset.sum_neg_distrib]
    apply Finset.sum_congr rfl
    intro t htm
    have ht' : t < P + i := Finset.mem_range.mp htm
    have hS_getD : (idx_indep n C ++ ((List.range m).map d).take i).getD t 0 =
        perm.getD t 0 := by
      by_cases htP : t < P
      · rw [List.getD_append _ _ _ _ htP, hperm_def, List.getD_append _ _ _ _ htP]
      · rw [List.getD_append_right _ _ _ _ (by omega : (idx_indep n C).length ≤ t),
          hperm_def,
          List.getD_append_right _ _ _ _ (by omega : (idx_indep n C).length ≤ t)]
        have htn : t - P < i := by omega
        have htm2 : t - P < m := by omega
        rw [List.getD_eq_getElem _ _ (by simp; omega),
          List.getD_eq_getElem _ _ (by simp; omega)]
        simp
    have hb :
        (build_k (idx_indep n C) ((List.range m).map d) C var_indep i).getD t 0 =
          xfull.getD t 0 := by
      rw [hxfull]
      exact (build_k_getD_stable (by omega : i ≤ m) (by rw [hlen]; omega)).symm
    rw [hS_getD, hb, neg_mul]
    rfl
  refine ⟨gather xfull (argsort perm), hres, ?_, ?_, ?_⟩
  · unfold gather
    rw [hargsort]
    simp
  · intro i hi
    have hDi_n : d i < n := (hwf.2.1 i (List.mem_range.mpr hi)).1
    have hDi_mem : d i ∈ Finset.range n := Finset.mem_range.mpr hDi_n
    rw [← Finset.add_sum_erase _ _ hDi_mem]
    simp only [if_pos rfl, one_mul]
    have herase : ∑ j in (Finset.range n).erase (d i),
        (if j = d i then 1 else centry C i j) * (gather xfull (argsort perm)).getD j 0 =
        ∑ j in (Finset.range n).erase (d i),
          centry C i j * (gather xfull (argsort perm)).getD j 0 :=
      Finset.sum_congr rfl (fun j hj => by rw [if_neg (Finset.ne_of_mem_erase hj)])
    rw [herase]
    have hι_inj : ∀ t ∈ Finset.range (P + i), ∀ t' ∈ Finset.range (P + i),
        perm.getD t 0 = perm.getD t' 0 → t = t' := by
      intro t htm t' htm'
      have h1 := Finset.mem_range.mp htm
      have h2 := Finset.mem_range.mp htm'
      exact hidx_inj t t' (by omega) (by omega)
    have himg_sub : (Finset.range (P + i)).image (fun t => perm.getD t 0) ⊆
        (Finset.range n).erase (d i) := by
      intro j hj
      obtain ⟨t, htm, rfl⟩ := Finset.mem_image.mp hj
      have ht' : t < P + i := Finset.mem_range.mp htm
      refine Finset.mem_erase.mpr ⟨?_, Finset.mem_range.mpr (hval_lt t (by omega))⟩
      intro heq
      have : t = P + i := by
        apply hidx_inj t (P + i) (by omega) (by omega)
        rw [heq, hperm_getD_right i hi]
      omega
    have hvanish : ∀ j ∈ (Finset.range n).erase (d i),
        j ∉ (Finset.range (P + i)).image (fun t => perm.getD t 0) →
        centry C i j * (gather xfull (argsort perm)).getD j 0 = 0 := by
      intro j hj hnotimg
      have hj_n : j < n := Finset.mem_range.mp (Finset.mem_erase.mp hj).2
      have hj_ne : j ≠ d i := (Finset.mem_erase.mp hj).1
      have hzero : centry C i j = 0 := by
        by_contra hc
        apply hnotimg
        by_cases hmem : j ∈ idx_indep n C
        · obtain ⟨t, ht, hte⟩ := List.getElem_of_mem hmem
          refine Finset.mem_image.mpr ⟨t, Finset.mem_range.mpr (by omega), ?_⟩
          rw [hperm_def, List.getD_append _ _ _ _ (by omega : t < (idx_indep n C).length),
            List.getD_eq_getElem _ _ (by omega : t < (idx_indep n C).length)]
          exact hte
        · rw [mem_idx_indep] at hmem
          push_neg at hmem
          obtain ⟨i', hi', hc'⟩ := hmem hj_n
          have hj_eq : j = d i' :=
            hwf.2.2.1 i' (List.mem_range.mpr hi') j (List.mem_range.mpr hj_n) hc'
          have hii' : i' < i := by
            rcases Nat.lt_trichotomy i i' with h | h | h
            · have hz := hwf.2.2.2.2 i (List.mem_range.mpr hi) i'
                (List.mem_range.mpr hi') h
              rw [hj_eq] at hc
              exact absurd hz hc
            · subst h
              exact absurd hj_eq hj_ne
            · exact h
          refine Finset.mem_image.mpr ⟨P + i', Finset.mem_range.mpr (by omega), ?_⟩
          rw [hperm_getD_right i' (by omega), hj_eq]
      rw [hzero, zero_mul]
    rw [← Finset.sum_subset himg_sub hvanish, Finset.sum_image hι_inj]
    have hterm : ∀ t ∈ Finset.range (P + i),
        centry C i (perm.getD t 0) * (gather xfull (argsort perm)).getD (perm.getD t 0) 0 =
        centry C i (perm.getD t 0) * xfull.getD t 0 := by
      intro t htm
      have ht' : t < P + i := Finset.mem_range.mp htm
      rw [hfull_getD _ (hval_lt t (by omega)), hindexOf_getD t (by omega)]
    rw [Finset.sum_congr rfl hterm]
    have hDfull : (gather xfull (argsort perm)).getD (d i) 0 = xfull.getD (P + i) 0 := by
      rw [hfull_getD _ hDi_n, ← hperm_getD_right i hi, hindexOf_getD (P + i) (by omega)]
    rw [hDfull, hentry i hi]
    simp
  · intro t ht
    have htn : t < n := by omega
    have hidxI_getD : (idx_indep n C).getD t 0 = perm.getD t 0 :=
      (List.getD_append _ _ _ _ ht).symm
    rw [hidxI_getD, hfull_getD _ (hval_lt t htn), hindexOf_getD t htn]
    have h0 : build_k (idx_indep n C) ((List.range m).map d) C var_indep 0 =
        var_indep := rfl
    rw [hxfull]
    rw [build_k_getD_stable (by omega : 0 ≤ m)
      (show t < var_indep.length + 0 by rw [hlen]; omega)]
    rw [h0]



/-- Witness for C2 (amended): the chained two-constraint matrix
    `[[1, -1, 0], [0, 1, -1]]` over three columns (dependent columns 1 and 2,
    the second depending on the first) with independent parameter `[1]`. -/
theorem apply_constraints_rows_and_order_witness :
    ∃ full : List ℚ,
      apply_constraints 3 [[1, -1, 0], [0, 1, -1]] none (some [1]) = .ok full ∧
      full.length = 3 ∧
      (∀ i, i < ([[1, -1, 0], [0, 1, -1]] : List (List ℚ)).length →
        (∑ j in Finset.range 3,
          (if j = i + 1 then 1 else centry [[1, -1, 0], [0, 1, -1]] i j) *
            full.getD j 0) = 0) ∧
      (∀ t, t < (idx_indep 3 [[1, -1, 0], [0, 1, -1]]).length →
        full.getD ((idx_indep 3 [[1, -1, 0], [0, 1, -1]]).getD t 0) 0 =
          ([1] : List ℚ).getD t 0) :=
  @apply_constraints_rows_and_order 3 [[1, -1, 0], [0, 1, -1]] (fun i => i + 1)
    (by refine ⟨?_, ?_, ?_, ?_, ?_⟩ <;> decide) (by simp) [1] rfl

/-- C6 counterexample: with one constraint row and neither tensor supplied,
    `apply_constraints` does not fail at the argument check: it proceeds into
    the reconstruction loop with `x = None` and the failure surfaces at the
    loop's `tf.matmul`, not as the immediate InvalidArgument-style error. -/
theorem apply_constraints_neither_not_immediate :
    apply_constraints 2 [[1, -1]] none none =
        .error (.typeError "tf.matmul: tensor is None") ∧
      apply_constraints 2 [[1, -1]] none none ≠
        .error (.valueError "only give var_all or var_indep to apply_constraints.") := by
  refine ⟨rfl, fun h => ?_⟩
  rw [show apply_constraints 2 [[1, -1]] none none =
    .error (.typeError "tf.matmul: tensor is None") from rfl] at h
  exact PyErr.noConfusion (Except.error.inj h)

/-- C6 (amended): the index computations — including the `idx_dep` dedup —
    run before the argument check, so a zero-row constraint matrix raises
    `ValueError: need at least one array to concatenate` at the dedup in
    every argument configuration.  For a nonempty constraint matrix: when
    both tensors are supplied, `apply_constraints` raises the ValueError
    immediately, before the reconstruction loop; when neither is supplied
    there is no immediate check — `x` is set to `None` and the failure only
    surfaces inside the reconstruction, at the first constraint row's
    `tf.matmul`. -/
theorem apply_constraints_arg_check (n : ℕ) (C : List (List ℚ)) (va vi : List ℚ) :
    (C = [] → ∀ va' vi' : Option (List ℚ),
      apply_constraints n C va' vi' =
        .error (.valueError "need at least one array to concatenate")) ∧
      (C ≠ [] → apply_constraints n C (some va) (some vi) =
        .error (.valueError "only give var_all or var_indep to apply_constraints.")) ∧
      (C ≠ [] → apply_constraints n C none none =
        .error (.typeError "tf.matmul: tensor is None")) := by
  refine ⟨fun h va' vi' => ?_, fun h => ?_, fun h => ?_⟩
  · subst h
    rfl
  · unfold apply_constraints idx_dep np_concatenate
    rw [if_neg (dedup_lists_idx_dep_rows_not_empty h)]
  · unfold apply_constraints idx_dep np_concatenate
    rw [if_neg (dedup_lists_idx_dep_rows_not_empty h)]
    rw [if_neg (fun hl => h (List.length_eq_zero.mp hl))]

/-- Witness for C6 (amended): the zero-row matrix raises at the dedup; a
    one-row matrix raises the arg-check ValueError when both tensors are
    given and the loop-time matmul typeError when neither is. -/
theorem apply_constraints_arg_check_witness :
    apply_constraints 2 ([] : List (List ℚ)) none (some [1]) =
        .error (.valueError "need at least one array to concatenate") ∧
      apply_constraints 2 [[1, -1]] (some [1, 2]) (some [1]) =
        .error (.valueError "only give var_all or var_indep to apply_constraints.") ∧
      apply_constraints 2 [[1, -1]] none none =
        .error (.typeError "tf.matmul: tensor is None") :=
  ⟨(apply_constraints_arg_check 2 [] [1, 2] [1]).1 rfl none (some [1]),
    (apply_constraints_arg_check 2 [[1, -1]] [1, 2] [1]).2.1 (by simp),
    (apply_constraints_arg_check 2 [[1, -1]] [1, 2] [1]).2.2 (by simp)⟩

/-- C2 counterexample: for the well-formed constraint matrix `[[1, -1]]` and
    independent parameter `[1]`, the reducer reconstructs `[1, -1]`
    (the dependent parameter is bound to the negative sum), and the row's
    literal linear combination over the reconstructed parameters is
    `1·1 + (−1)·(−1) = 2`, not `0`. -/
theorem constraint_row_combination_counterexample :
    apply_constraints 2 [[1, -1]] none (some [1]) = .ok [1, -1] ∧
      (∑ j in Finset.range 2,
        centry [[1, -1]] 0 j * (([1, -1] : List ℚ).getD j 0)) = 2 := by
  constructor
  · have h : dep_dot [1, -1] [0] [1] = -1 := by simp [dep_dot]
    show Except.ok (gather [1, dep_dot [1, -1] [0] [1]] [0, 1]) = _
    rw [h]
    rfl
  · simp [Finset.sum_range_succ, centry]
    norm_num

/-! ## Theorems: optimizer dispatch -/

/-- C4, failing input: on a trainer with all ops built (plain IRLS op `6`,
    IRLS trust-region op `7`), every IRLS-trust-region name variant returns
    the plain IRLS op `6`, not the built trust-region op `7` — the source's
    irls-trust-region branch returns `self.train_op_irls`.  (Case-folding
    and the unknown-name error behave as claimed.) -/
theorem train_op_by_name_irls_tr_returns_plain_irls :
    train_op_by_name multiTrainerOpsTest "irls_tr" = .ok 6 ∧
      train_op_by_name multiTrainerOpsTest "IRLS_trust_region" = .ok 6 ∧
      train_op_by_name multiTrainerOpsTest "iwls-trust-region" = .ok 6 ∧
      multiTrainerOpsTest.train_op_irls_tr = some 7 ∧
      train_op_by_name multiTrainerOpsTest "nonsense" =
        .error (.valueError "Unknown optimizer nonsense") :=
  ⟨rfl, rfl, rfl, rfl, rfl⟩

/-! ## Theorems: convergence monitor -/

/-- C9: on every call — here the claim's own scenario, a two-step window
    saturated with the constant loss `5`, the previous-window mean recorded
    as `5`, and the session delivering `global_step = 2`, `loss = 5` —
    `StopAtLossHook.after_run` raises `AttributeError` reading
    `run_values.summary` (not a field of `SessionRunValues`) before any
    loss-change computation, so the claimed stop request is unreachable.
    The machinery below the crashing extraction agrees with the claim: the
    hook's `loss_change` is exactly `0` and the body of `after_run` (as it
    would run on correctly extracted values, the way the sibling
    `TimedRunHook` reads `run_values.results`) would request the stop. -/
theorem stop_hook_after_run_attribute_error :
    hook_after_run stopHookStateTest { results := (2, 5) } =
        .error (.attributeError "SessionRunValues object has no attribute summary") ∧
      hook_loss_change stopHookStateTest = some 0 ∧
      (after_run_body stopHookStateTest 2 5).2 = true := by
  have hmean : npMean [5, 5] = (5 : ℚ) := by
    simp [npMean]
  have hlc : hook_loss_change stopHookStateTest = some 0 := by
    show some |(5 : ℚ) - npMean [5, 5]| = some 0
    rw [hmean]
    norm_num
  refine ⟨rfl, hlc, ?_⟩
  unfold after_run_body
  rw [if_pos (by norm_num [stopHookStateTest] :
    (2 : ℕ) ≥ stopHookStateTest.last_step)]
  simp only [hlc]
  norm_num [stopHookStateTest]

/-! ## Theorems: gradient fallback -/

/-- C10: constructing `MultiTrainer` with `gradients=None` and a non-None
    `variables` reaches the fallback whose comprehension zips over
    `plain_gradients_vars` — the very local being assigned — so the
    constructor fails with an unbound-name error on every such input; the
    documented tensorflow-gradient path never completes. -/
theorem multi_trainer_gradients_unbound (tfg : PyVal → PyVal → PyVal)
    (loss varsArg : PyVal) (hv : varsArg.isNone = false) :
    multi_trainer_gradients tfg loss varsArg .pynone =
      .error (.nameError "plain_gradients_vars") := by
  have h1 : PyVal.isNone .pynone = true := rfl
  simp [multi_trainer_gradients, h1, hv, lookup_name]

/-- Witness for C10 at a concrete non-None `variables`. -/
theorem multi_trainer_gradients_unbound_witness :
    multi_trainer_gradients (fun _ _ => .list []) .pynone (.tensor 0) .pynone =
      .error (.nameError "plain_gradients_vars") :=
  multi_trainer_gradients_unbound (fun _ _ => .list []) .pynone (.tensor 0) rfl

end BatchGLM
